import Mathlib

/-!
Shallow embedding of the undo/redo history core of the textpurify repository.

The source of truth is the React hook `useUndoRedo` (history store, commit
scheduler) and the request-guard logic of the `triggerCleaning` function in
the application component.  A buffer state holds the visible value
(`present`), the two stacks (`past`, `future`), the last committed snapshot
(`lastCommittedRef` in the source) and the pending debounce timer
(`timeoutRef`), modelled as the captured new value together with its fire
deadline.  Time is measured in abstract milliseconds (`Nat`).
-/

namespace TextPurify

/-- State of one `useUndoRedo` buffer.  `pendingTimeout` models `timeoutRef`:
the value captured by the scheduled `commitToHistory` closure and the time at
which the timer fires. -/
structure Buffer (T : Type) where
  present : T
  past : List T
  future : List T
  lastCommitted : T
  pendingTimeout : Option (T × Nat)
deriving DecidableEq

/-- Initial state of `useUndoRedo initialState`. -/
def Buffer.init {T : Type} (v : T) : Buffer T :=
  { present := v, past := [], future := [], lastCommitted := v, pendingTimeout := none }

/-- `canUndo: past.length > 0`. -/
def Buffer.canUndo {T : Type} (b : Buffer T) : Bool :=
  decide (0 < b.past.length)

/-- `canRedo: future.length > 0`. -/
def Buffer.canRedo {T : Type} (b : Buffer T) : Bool :=
  decide (0 < b.future.length)

/-- The `undo` callback: no-op on empty `past`; otherwise cancels a pending
timer, moves `present` to the front of `future`, pops the last entry of
`past` into `present` and records it as `lastCommitted`. -/
def Buffer.undo {T : Type} (b : Buffer T) : Buffer T :=
  match b.past.getLast? with
  | none => b
  | some previous =>
      { present := previous
        past := b.past.dropLast
        future := b.present :: b.future
        lastCommitted := previous
        pendingTimeout := none }

/-- The `redo` callback: mirror of `undo`, consuming the front of `future`. -/
def Buffer.redo {T : Type} (b : Buffer T) : Buffer T :=
  match b.future with
  | [] => b
  | next :: rest =>
      { present := next
        past := b.past ++ [b.present]
        future := rest
        lastCommitted := next
        pendingTimeout := none }

/-- The `set` callback.  `D` is `options.debounce` (`0` stands for the JS
falsy values `undefined`/`0`), `now` the current clock reading.  An
unchanged value is a no-op; a forced or undebounced call commits
synchronously (pushing the previous `lastCommitted` onto `past`, clearing
`future`); otherwise the pending timer is replaced by a fresh one capturing
`newValue`. -/
def Buffer.set {T : Type} [DecidableEq T] (b : Buffer T) (D : Nat) (newValue : T)
    (forceHistory : Bool) (now : Nat) : Buffer T :=
  if newValue = b.present then b
  else if forceHistory || D == 0 then
    { present := newValue
      past := b.past ++ [b.lastCommitted]
      future := []
      lastCommitted := newValue
      pendingTimeout := none }
  else
    { b with present := newValue, pendingTimeout := some (newValue, now + D) }

/-- The `reset` callback. -/
def Buffer.reset {T : Type} (b : Buffer T) (newValue : T) : Buffer T :=
  { present := newValue, past := [], future := [], lastCommitted := newValue,
    pendingTimeout := none }

/-- The body of the scheduled `commitToHistory` closure: push the previous
`lastCommitted` onto `past`, clear `future`, record the captured value. -/
def Buffer.fireTimeout {T : Type} (b : Buffer T) : Buffer T :=
  match b.pendingTimeout with
  | none => b
  | some (v, _) =>
      { present := b.present
        past := b.past ++ [b.lastCommitted]
        future := []
        lastCommitted := v
        pendingTimeout := none }

/-- Let the clock reach `now`: a pending timer whose deadline has passed
fires its `commitToHistory` closure. -/
def Buffer.expire {T : Type} (b : Buffer T) (now : Nat) : Buffer T :=
  match b.pendingTimeout with
  | none => b
  | some (_, deadline) => if deadline ≤ now then b.fireTimeout else b

/-- The operations a caller can perform on one buffer. -/
inductive Op (T : Type) where
  | set (v : T) (force : Bool)
  | undo
  | redo
  | reset (v : T)
deriving DecidableEq

/-- Dispatch one operation at clock reading `t`. -/
def Buffer.applyOp {T : Type} [DecidableEq T] (b : Buffer T) (D : Nat) (t : Nat) :
    Op T → Buffer T
  | Op.set v f => b.set D v f t
  | Op.undo => b.undo
  | Op.redo => b.redo
  | Op.reset v => b.reset v

/-- Run a timestamped list of operations.  Before each operation the clock
advances to its timestamp, firing an elapsed debounce timer first (the JS
event loop runs due timeout callbacks before later user events). -/
def Buffer.runTimed {T : Type} [DecidableEq T] (D : Nat) (b : Buffer T) :
    List (Nat × Op T) → Buffer T
  | [] => b
  | (t, op) :: rest => Buffer.runTimed D ((b.expire t).applyOp D t op) rest

/-- Instrumented run recording the values the buffer's `lastCommitted` field
takes over time (most recent first): the accumulator observes the field after
the timer-expiry phase and after the operation of every event.  A value is
"committed at some point during the run" exactly when it occurs in the log. -/
def runLogC {T : Type} [DecidableEq T] (D : Nat) :
    Buffer T → List T → List (Nat × Op T) → Buffer T × List T
  | b, log, [] => (b, log)
  | b, log, (t, op) :: rest =>
      runLogC D ((b.expire t).applyOp D t op)
        (((b.expire t).applyOp D t op).lastCommitted
          :: (b.expire t).lastCommitted :: log) rest

/-- Instrumented run recording every value pushed onto `past` (in push
order): after each phase of an event, the entries appended to `past` beyond
its previous length are logged.  No operation of the source both pops and
pushes `past`, so this captures exactly the pushes. -/
def runPush {T : Type} [DecidableEq T] (D : Nat) :
    Buffer T → List T → List (Nat × Op T) → Buffer T × List T
  | b, log, [] => (b, log)
  | b, log, (t, op) :: rest =>
      runPush D ((b.expire t).applyOp D t op)
        ((log ++ (b.expire t).past.drop b.past.length)
          ++ ((b.expire t).applyOp D t op).past.drop (b.expire t).past.length) rest

/-- A trace is guarded when every `undo`/`redo` in it is issued while no
debounced commit is pending. -/
def guardedTrace {T : Type} [DecidableEq T] (D : Nat) :
    Buffer T → List (Nat × Op T) → Bool
  | _, [] => true
  | b, (t, op) :: rest =>
      (match op with
       | Op.undo => (b.expire t).pendingTimeout.isNone
       | Op.redo => (b.expire t).pendingTimeout.isNone
       | _ => true)
      && guardedTrace D ((b.expire t).applyOp D t op) rest

/-- Each listed value differs from the one before it (the first from `p`):
the "distinct new values" hypothesis of the forced-`set` sequences. -/
def chainNew {T : Type} [DecidableEq T] : T → List T → Bool
  | _, [] => true
  | p, v :: vs => decide (v ≠ p) && chainNew v vs

/-- Apply a sequence of forced `set` calls (`forceCommit = true`); forced
commits ignore the clock, so the calls are issued at time 0. -/
def applyForcedSets {T : Type} [DecidableEq T] (D : Nat) : Buffer T → List T → Buffer T
  | b, [] => b
  | b, v :: vs => applyForcedSets D (b.set D v true 0) vs

/-- The successive values of `present` observed while calling `undo` the
given number of times. -/
def undoTrajectory {T : Type} (b : Buffer T) : Nat → List T
  | 0 => []
  | k + 1 => (b.undo).present :: undoTrajectory (b.undo) k

/-- Well-formed debounced burst continuation: starting from a call of value
`p` issued at time `tp`, each later call comes no earlier, strictly within
the debounce window of its predecessor, and carries a genuinely new value. -/
def burstRest {T : Type} [DecidableEq T] (D : Nat) : T → Nat → List (Nat × T) → Bool
  | _, _, [] => true
  | p, tp, (t, v) :: rest =>
      decide (tp ≤ t) && decide (t < tp + D) && decide (v ≠ p) && burstRest D v t rest

/-- A burst of non-forced `set` calls as a timed trace. -/
def burstTrace {T : Type} : List (Nat × T) → List (Nat × Op T) :=
  List.map (fun tv => (tv.1, Op.set tv.2 false))

/-- Relation between `lastCommitted`, `present` and the pending timer that
holds in every reachable state: with no pending debounced commit the two
fields agree, and a pending commit always captures the current `present`. -/
def lcInv {T : Type} (b : Buffer T) : Prop :=
  (b.pendingTimeout = none → b.lastCommitted = b.present) ∧
  (∀ v d, b.pendingTimeout = some (v, d) → v = b.present)

/-- Stacks-only-hold-logged-values invariant used for the committed-values
claim: both stacks and `lastCommitted` draw from the log, `present` does too
whenever no commit is pending, and a pending commit captures `present`. -/
def stackInv {T : Type} (b : Buffer T) (log : List T) : Prop :=
  (∀ x ∈ b.past, x ∈ log) ∧ (∀ x ∈ b.future, x ∈ log) ∧
  b.lastCommitted ∈ log ∧
  (b.pendingTimeout = none → b.present ∈ log) ∧
  (∀ v d, b.pendingTimeout = some (v, d) → v = b.present)

/-- Application state around the output buffer in the `App` component:
the output history (undebounced), the error and loading flags, and the
`lastRequestTime` ref of the request guard. -/
structure AppState (T : Type) where
  output : Buffer T
  error : Option String
  isCleaning : Bool
  lastRequestTime : Nat
deriving DecidableEq

/-- Issuing `triggerCleaning` at clock reading `now` (`Date.now()`):
`requestId = Date.now(); lastRequestTime.current = requestId;
setIsCleaning(true); setError(null)`.  Returns the new state and the token
assigned to the invocation. -/
def triggerIssue {T : Type} (s : AppState T) (now : Nat) : AppState T × Nat :=
  ({ s with lastRequestTime := now, isCleaning := true, error := none }, now)

/-- Completion of a `triggerCleaning` invocation holding token `requestId`:
on success the result is applied with `setOutput(cleaned, true)` only if the
token is still current; on failure the error is recorded only if the token
is still current; the `finally` block clears the loading flag under the same
condition. -/
def triggerComplete {T : Type} [DecidableEq T] (s : AppState T) (requestId : Nat)
    (result : Except String T) (now : Nat) : AppState T :=
  let s1 := match result with
    | Except.ok cleaned =>
        if s.lastRequestTime = requestId then
          { s with output := s.output.set 0 cleaned true now }
        else s
    | Except.error msg =>
        if s.lastRequestTime = requestId then { s with error := some msg } else s
  if s1.lastRequestTime = requestId then { s1 with isCleaning := false } else s1

end TextPurify

namespace TextPurify

/-- Claim C1: from any buffer state with non-empty `past`, `undo()`
immediately followed by `redo()` restores `present`, `past` and `future`
to their values before the pair of calls. -/
theorem undo_redo_roundtrip {T : Type} (b : Buffer T) (h : b.past ≠ []) :
    ((b.undo).redo).present = b.present ∧
    ((b.undo).redo).past = b.past ∧
    ((b.undo).redo).future = b.future := by
  rcases List.eq_nil_or_concat b.past with hnil | ⟨xs, x, hx⟩
  · exact absurd hnil h
  · simp [Buffer.undo, Buffer.redo, hx]

/-- Witness for C1 at a concrete state. -/
theorem undo_redo_roundtrip_witness :
    (((Buffer.mk (5 : Nat) [1, 2] [7] 5 none).undo).redo).present
        = (Buffer.mk (5 : Nat) [1, 2] [7] 5 none).present ∧
    (((Buffer.mk (5 : Nat) [1, 2] [7] 5 none).undo).redo).past
        = (Buffer.mk (5 : Nat) [1, 2] [7] 5 none).past ∧
    (((Buffer.mk (5 : Nat) [1, 2] [7] 5 none).undo).redo).future
        = (Buffer.mk (5 : Nat) [1, 2] [7] 5 none).future :=
  undo_redo_roundtrip (Buffer.mk 5 [1, 2] [7] 5 none) (by decide)

/-- Claim C6: from any state with non-empty `future`, a forced `set` with a
genuinely new value empties `future`, so `canRedo` becomes false. -/
theorem forced_set_clears_future {T : Type} [DecidableEq T] (b : Buffer T) (v : T)
    (D t : Nat) (hfut : b.future ≠ []) (hv : v ≠ b.present) :
    (b.set D v true t).future = [] ∧ (b.set D v true t).canRedo = false := by
  clear hfut
  simp [Buffer.set, hv, Buffer.canRedo]

/-- Witness for C6 at a concrete state. -/
theorem forced_set_clears_future_witness :
    ((Buffer.mk (0 : Nat) [] [9] 0 none).set 0 1 true 0).future = [] ∧
    ((Buffer.mk (0 : Nat) [] [9] 0 none).set 0 1 true 0).canRedo = false :=
  forced_set_clears_future (Buffer.mk 0 [] [9] 0 none) 1 0 0 (by decide) (by decide)

/-- Claim C7: `undo()` is a no-op when `past` is empty; otherwise it cancels
the pending timer, prepends `present` to `future`, pops the last entry of
`past` into `present` and records it as `lastCommitted`. -/
theorem undo_characterization {T : Type} (b : Buffer T) :
    (b.past = [] → b.undo = b) ∧
    (∀ xs x, b.past = xs ++ [x] →
      b.undo = { present := x, past := xs, future := b.present :: b.future,
                 lastCommitted := x, pendingTimeout := none }) := by
  constructor
  · intro h
    simp [Buffer.undo, h]
  · intro xs x hx
    simp [Buffer.undo, hx]

/-- Witness for C7 at a concrete state (with a pending timer, which the undo
cancels). -/
theorem undo_characterization_witness :
    (Buffer.mk (5 : Nat) [1, 2] [7] 3 (some (9, 4))).undo
      = { present := 2, past := [1], future := [5, 7], lastCommitted := 2,
          pendingTimeout := none } :=
  (undo_characterization (Buffer.mk 5 [1, 2] [7] 3 (some (9, 4)))).2 [1] 2 rfl

/-- Claim C10: a non-forced `set` under a positive debounce interval leaves
`future` (hence `canRedo`) untouched; `future` is cleared only when the
scheduled commit fires. -/
theorem debounced_set_preserves_future {T : Type} [DecidableEq T] (b : Buffer T)
    (v : T) (D t : Nat) (hD : 0 < D) (hv : v ≠ b.present) :
    (b.set D v false t).future = b.future ∧
    (b.set D v false t).canRedo = b.canRedo ∧
    ((b.set D v false t).fireTimeout).future = [] := by
  have hD0 : (D == 0) = false := by
    simp [Nat.pos_iff_ne_zero.mp hD]
  simp [Buffer.set, hv, hD0, Buffer.canRedo, Buffer.fireTimeout]

/-- Witness for C10 at a concrete state with non-empty `future`. -/
theorem debounced_set_preserves_future_witness :
    ((Buffer.mk (0 : Nat) [] [9] 0 none).set 5 1 false 0).future
        = (Buffer.mk (0 : Nat) [] [9] 0 none).future ∧
    ((Buffer.mk (0 : Nat) [] [9] 0 none).set 5 1 false 0).canRedo
        = (Buffer.mk (0 : Nat) [] [9] 0 none).canRedo ∧
    (((Buffer.mk (0 : Nat) [] [9] 0 none).set 5 1 false 0).fireTimeout).future = [] :=
  debounced_set_preserves_future (Buffer.mk 0 [] [9] 0 none) 1 5 0 (by decide) (by decide)

/-- Claim C9: a failed cleaning operation leaves the output buffer's `past`,
`future` and `present` exactly as they were before the operation was issued:
neither issuing the request nor its failing completion touches the buffer. -/
theorem failure_leaves_buffer_unchanged {T : Type} [DecidableEq T]
    (s : AppState T) (requestId now tIssue : Nat) (msg : String) :
    (triggerComplete s requestId (Except.error msg) now).output.past = s.output.past ∧
    (triggerComplete s requestId (Except.error msg) now).output.future = s.output.future ∧
    (triggerComplete s requestId (Except.error msg) now).output.present = s.output.present ∧
    (triggerIssue s tIssue).1.output = s.output := by
  have houtput : (triggerComplete s requestId (Except.error msg) now).output = s.output := by
    simp only [triggerComplete]
    by_cases h : s.lastRequestTime = requestId <;> simp [h]
  exact ⟨by rw [houtput], by rw [houtput], by rw [houtput], rfl⟩

/-- Counterexample to claim C8 as stated: tokens are `Date.now()` readings,
so two invocations issued within the same millisecond receive equal tokens
and the later-issued one is not strictly greater. -/
theorem same_clock_tokens_equal :
    ¬ ((triggerIssue ((triggerIssue
          (AppState.mk (Buffer.init (0 : Nat)) none false 0) 5).1) 5).2
        > (triggerIssue (AppState.mk (Buffer.init (0 : Nat)) none false 0) 5).2) := by
  decide

/-- Amended claim C8: the token of a later-issued invocation is at least the
earlier one whenever the clock is non-decreasing, and strictly greater
exactly when the clock reading strictly advanced between the issuances. -/
theorem tokens_increase_with_clock {T : Type} (s : AppState T) (n1 n2 : Nat) :
    (n1 ≤ n2 →
      (triggerIssue s n1).2 ≤ (triggerIssue ((triggerIssue s n1).1) n2).2) ∧
    (n1 < n2 →
      (triggerIssue s n1).2 < (triggerIssue ((triggerIssue s n1).1) n2).2) :=
  ⟨fun h => h, fun h => h⟩

/-- Witness for the amended C8 at concrete clock readings. -/
theorem tokens_increase_with_clock_witness :
    (triggerIssue (AppState.mk (Buffer.init (0 : Nat)) none false 0) 3).2
      < (triggerIssue ((triggerIssue
          (AppState.mk (Buffer.init (0 : Nat)) none false 0) 3).1) 5).2 :=
  (tokens_increase_with_clock (AppState.mk (Buffer.init 0) none false 0) 3 5).2
    (by decide)

theorem chainNew_take {T : Type} [DecidableEq T] :
    ∀ (vs : List T) (p : T) (k : Nat), chainNew p vs = true → chainNew p (vs.take k) = true := by
  intro vs
  induction vs with
  | nil => intro p k _; simp [chainNew]
  | cons v tl ih =>
      intro p k h
      simp only [chainNew, Bool.and_eq_true, decide_eq_true_eq] at h
      cases k with
      | zero => simp [chainNew]
      | succ k =>
          simp only [List.take_succ_cons, chainNew, Bool.and_eq_true, decide_eq_true_eq]
          exact ⟨h.1, ih v k h.2⟩

theorem applyForcedSets_spec {T : Type} [DecidableEq T] (D : Nat) :
    ∀ (vs : List T) (p : T) (ps : List T), chainNew p vs = true →
      applyForcedSets D (Buffer.mk p ps [] p none) vs
        = Buffer.mk (vs.getLastD p) (ps ++ (p :: vs).dropLast) [] (vs.getLastD p) none := by
  intro vs
  induction vs with
  | nil => intro p ps _; simp [applyForcedSets]
  | cons v tl ih =>
      intro p ps hch
      simp only [chainNew, Bool.and_eq_true, decide_eq_true_eq] at hch
      obtain ⟨hv, htl⟩ := hch
      have hset : (Buffer.mk p ps [] p none).set D v true 0
          = Buffer.mk v (ps ++ [p]) [] v none := by
        simp [Buffer.set, hv]
      simp only [applyForcedSets]
      rw [hset, ih v (ps ++ [p]) htl]
      have hdrop : (p :: v :: tl).dropLast = p :: (v :: tl).dropLast := rfl
      have hgl : (v :: tl).getLast?.getD p = tl.getLast?.getD v := by
        cases tl with
        | nil => simp
        | cons h t =>
            rw [List.getLast?_cons_cons]
            cases hq : (h :: t).getLast? with
            | none => simp at hq
            | some a => rfl
      simp [hdrop, hgl, List.append_assoc]

theorem undo_self_of_past_nil {T : Type} (b : Buffer T) (h : b.past = []) :
    b.undo = b := by
  simp [Buffer.undo, h]

theorem undo_concat {T : Type} (xs : List T) (x p lc : T) (fut : List T)
    (pend : Option (T × Nat)) :
    (Buffer.mk p (xs ++ [x]) fut lc pend).undo = Buffer.mk x xs (p :: fut) x none := by
  simp [Buffer.undo]

theorem undoTrajectory_reverse {T : Type} (l : List T) :
    ∀ (p lc : T) (fut : List T) (pend : Option (T × Nat)),
      undoTrajectory (Buffer.mk p l fut lc pend) l.length = l.reverse := by
  induction l using List.reverseRecOn with
  | nil => intro p lc fut pend; simp [undoTrajectory]
  | append_singleton xs x ih =>
      intro p lc fut pend
      have hlen : (xs ++ [x]).length = xs.length + 1 := by simp
      rw [hlen]
      simp only [undoTrajectory, undo_concat]
      rw [ih x x (p :: fut) none]
      simp

theorem undo_iterate_spec {T : Type} (l : List T) :
    ∀ (p lc : T) (fut : List T) (pend : Option (T × Nat)),
      (Buffer.undo^[l.length] (Buffer.mk p l fut lc pend)).past = [] ∧
      (Buffer.undo^[l.length] (Buffer.mk p l fut lc pend)).present = l.headD p := by
  induction l using List.reverseRecOn with
  | nil => intro p lc fut pend; simp
  | append_singleton xs x ih =>
      intro p lc fut pend
      have hlen : (xs ++ [x]).length = xs.length + 1 := by simp
      rw [hlen, Function.iterate_succ_apply, undo_concat]
      obtain ⟨h1, h2⟩ := ih x x (p :: fut) none
      refine ⟨h1, ?_⟩
      rw [h2]
      cases xs <;> simp

/-- Claim C2: starting from a fresh buffer, any non-empty sequence of forced
`set` calls with successively new values leaves `canUndo` true after every
call; repeated `undo` then walks `present` back through every previously
committed value in reverse commit order, ends at the initial value with an
empty `past`, and a further `undo` is a no-op. -/
theorem forced_sets_undo_traversal {T : Type} [DecidableEq T] (D : Nat) (v0 : T)
    (vs : List T) (hne : vs ≠ []) (hch : chainNew v0 vs = true) :
    (∀ k, k < vs.length →
      (applyForcedSets D (Buffer.init v0) (vs.take (k + 1))).canUndo = true) ∧
    undoTrajectory (applyForcedSets D (Buffer.init v0) vs) vs.length
      = ((v0 :: vs).dropLast).reverse ∧
    (Buffer.undo^[vs.length] (applyForcedSets D (Buffer.init v0) vs)).present = v0 ∧
    (Buffer.undo^[vs.length] (applyForcedSets D (Buffer.init v0) vs)).past = [] ∧
    Buffer.undo (Buffer.undo^[vs.length] (applyForcedSets D (Buffer.init v0) vs))
      = Buffer.undo^[vs.length] (applyForcedSets D (Buffer.init v0) vs) := by
  have hinit : Buffer.init v0 = Buffer.mk v0 [] [] v0 none := rfl
  have hmain := applyForcedSets_spec D vs v0 [] hch
  have hlenD : ((v0 :: vs).dropLast).length = vs.length := by
    simp
  have hheadD : ((v0 :: vs).dropLast).headD (vs.getLastD v0) = v0 := by
    cases vs with
    | nil => exact absurd rfl hne
    | cons w ws => rfl
  refine ⟨?_, ?_, ?_, ?_, ?_⟩
  · intro k hk
    have hpre := applyForcedSets_spec D (vs.take (k + 1)) v0 []
      (chainNew_take vs v0 (k + 1) hch)
    rw [hinit, hpre]
    simp only [Buffer.canUndo, decide_eq_true_eq]
    simp only [List.nil_append, List.length_dropLast, List.length_cons, List.length_take]
    omega
  · rw [hinit, hmain]
    have := undoTrajectory_reverse ((v0 :: vs).dropLast) (vs.getLastD v0)
      (vs.getLastD v0) [] none
    rw [hlenD] at this
    simpa using this
  · rw [hinit, hmain]
    have := undo_iterate_spec ((v0 :: vs).dropLast) (vs.getLastD v0)
      (vs.getLastD v0) [] none
    rw [hlenD] at this
    have h2 := this.2
    simp only [List.nil_append] at h2 ⊢
    rw [h2, hheadD]
  · rw [hinit, hmain]
    have := undo_iterate_spec ((v0 :: vs).dropLast) (vs.getLastD v0)
      (vs.getLastD v0) [] none
    rw [hlenD] at this
    simpa using this.1
  · rw [hinit, hmain]
    have := undo_iterate_spec ((v0 :: vs).dropLast) (vs.getLastD v0)
      (vs.getLastD v0) [] none
    rw [hlenD] at this
    apply undo_self_of_past_nil
    simpa using this.1

/-- Witness for C2 with initial value `0` and forced commits of `1` then `2`. -/
theorem forced_sets_undo_traversal_witness :
    (∀ k, k < ([1, 2] : List Nat).length →
      (applyForcedSets 3 (Buffer.init 0) ([1, 2].take (k + 1))).canUndo = true) ∧
    undoTrajectory (applyForcedSets 3 (Buffer.init 0) [1, 2]) ([1, 2] : List Nat).length
      = (((0 : Nat) :: [1, 2]).dropLast).reverse ∧
    (Buffer.undo^[([1, 2] : List Nat).length]
        (applyForcedSets 3 (Buffer.init 0) [1, 2])).present = 0 ∧
    (Buffer.undo^[([1, 2] : List Nat).length]
        (applyForcedSets 3 (Buffer.init 0) [1, 2])).past = [] ∧
    Buffer.undo (Buffer.undo^[([1, 2] : List Nat).length]
        (applyForcedSets 3 (Buffer.init 0) [1, 2]))
      = Buffer.undo^[([1, 2] : List Nat).length]
          (applyForcedSets 3 (Buffer.init 0) [1, 2]) :=
  forced_sets_undo_traversal 3 0 [1, 2] (by decide) (by decide)

theorem lcInv_init {T : Type} (v : T) : lcInv (Buffer.init v) := by
  constructor
  · intro _; rfl
  · intro v' d' h; cases h

theorem lcInv_expire {T : Type} (b : Buffer T) (t : Nat) (h : lcInv b) :
    lcInv (b.expire t) := by
  obtain ⟨h1, h2⟩ := h
  cases hp : b.pendingTimeout with
  | none => simpa [Buffer.expire, hp] using ⟨h1, h2⟩
  | some vd =>
      obtain ⟨v, d⟩ := vd
      simp only [Buffer.expire, hp]
      split
      · refine ⟨?_, ?_⟩
        · intro _
          simpa [Buffer.fireTimeout, hp] using h2 v d hp
        · intro v' d' h'
          simp [Buffer.fireTimeout, hp] at h'
      · exact ⟨h1, h2⟩

theorem lcInv_applyOp {T : Type} [DecidableEq T] (b : Buffer T) (D t : Nat)
    (op : Op T) (h : lcInv b) : lcInv (b.applyOp D t op) := by
  obtain ⟨h1, h2⟩ := h
  cases op with
  | set v f =>
      by_cases hv : v = b.present
      · have hx : b.applyOp D t (Op.set v f) = b := by
          simp [Buffer.applyOp, Buffer.set, hv]
        rw [hx]
        exact ⟨h1, h2⟩
      · by_cases hc : (f || D == 0) = true
        · have hx : b.applyOp D t (Op.set v f)
              = Buffer.mk v (b.past ++ [b.lastCommitted]) [] v none := by
            simp [Buffer.applyOp, Buffer.set, hv, hc]
          rw [hx]
          exact ⟨fun _ => rfl, fun v' d' h' => nomatch h'⟩
        · have hx : b.applyOp D t (Op.set v f)
              = Buffer.mk v b.past b.future b.lastCommitted (some (v, t + D)) := by
            simp [Buffer.applyOp, Buffer.set, hv, hc]
          rw [hx]
          refine ⟨?_, ?_⟩
          · intro hnone
            exact nomatch hnone
          intro v' d' h'
          have hp : (v, t + D) = (v', d') := Option.some.inj h'
          exact (congrArg Prod.fst hp).symm
  | undo =>
      cases hl : b.past.getLast? with
      | none =>
          have hx : b.applyOp D t Op.undo = b := by
            simp [Buffer.applyOp, Buffer.undo, hl]
          rw [hx]
          exact ⟨h1, h2⟩
      | some prev =>
          have hx : b.applyOp D t Op.undo
              = Buffer.mk prev b.past.dropLast (b.present :: b.future) prev none := by
            simp [Buffer.applyOp, Buffer.undo, hl]
          rw [hx]
          exact ⟨fun _ => rfl, fun v' d' h' => nomatch h'⟩
  | redo =>
      cases hf : b.future with
      | nil =>
          have hx : b.applyOp D t Op.redo = b := by
            simp [Buffer.applyOp, Buffer.redo, hf]
          rw [hx]
          exact ⟨h1, h2⟩
      | cons nx rest =>
          have hx : b.applyOp D t Op.redo
              = Buffer.mk nx (b.past ++ [b.present]) rest nx none := by
            simp [Buffer.applyOp, Buffer.redo, hf]
          rw [hx]
          exact ⟨fun _ => rfl, fun v' d' h' => nomatch h'⟩
  | reset v =>
      have hx : b.applyOp D t (Op.reset v) = Buffer.mk v [] [] v none := by
        simp [Buffer.applyOp, Buffer.reset]
      rw [hx]
      exact ⟨fun _ => rfl, fun v' d' h' => nomatch h'⟩

theorem lcInv_runTimed {T : Type} [DecidableEq T] (D : Nat) :
    ∀ (trace : List (Nat × Op T)) (b : Buffer T), lcInv b →
      lcInv (Buffer.runTimed D b trace) := by
  intro trace
  induction trace with
  | nil => intro b h; exact h
  | cons e rest ih =>
      obtain ⟨t, op⟩ := e
      intro b h
      exact ih _ (lcInv_applyOp _ D t op (lcInv_expire b t h))

/-- Amended claim C3: in every reachable state `lastCommitted` is the snapshot
the next commit will push onto `past`: it equals `present` whenever no
debounced commit is pending, and a pending commit always captures the current
`present` while `lastCommitted` retains the previously committed value. -/
theorem lastCommitted_tracks_present {T : Type} [DecidableEq T] (D : Nat) (v0 : T)
    (trace : List (Nat × Op T)) :
    ((Buffer.runTimed D (Buffer.init v0) trace).pendingTimeout = none →
      (Buffer.runTimed D (Buffer.init v0) trace).lastCommitted
        = (Buffer.runTimed D (Buffer.init v0) trace).present) ∧
    (∀ v d, (Buffer.runTimed D (Buffer.init v0) trace).pendingTimeout = some (v, d) →
      v = (Buffer.runTimed D (Buffer.init v0) trace).present) :=
  lcInv_runTimed D trace (Buffer.init v0) (lcInv_init v0)

/-- Witness for the amended C3 on a concrete run ending with no pending
commit. -/
theorem lastCommitted_tracks_present_witness :
    (Buffer.runTimed 4 (Buffer.init (0 : Nat)) [(0, Op.set 1 false), (2, Op.set 2 false), (9, Op.set 3 true)]).lastCommitted
      = (Buffer.runTimed 4 (Buffer.init (0 : Nat)) [(0, Op.set 1 false), (2, Op.set 2 false), (9, Op.set 3 true)]).present :=
  (lastCommitted_tracks_present 4 0
    [(0, Op.set 1 false), (2, Op.set 2 false), (9, Op.set 3 true)]).1 (by decide)

/-- Counterexample to claim C3 as stated: after the forced `set 1` on a
buffer initialized to `0`, the push log is `[0]`, so the value most recently
pushed onto `past` is `0`, yet `lastCommitted` is `1` (a commit pushes the
previous snapshot and then records the new value). -/
theorem lastCommitted_differs_from_last_push :
    (runPush 0 (Buffer.init (0 : Nat)) [] [(0, Op.set 1 true)]).2 = [0] ∧
    ¬ ((runPush 0 (Buffer.init (0 : Nat)) [] [(0, Op.set 1 true)]).1.lastCommitted
        = ((runPush 0 (Buffer.init (0 : Nat)) [] [(0, Op.set 1 true)]).2.getLastD 0)) := by
  decide

theorem stackInv_mono {T : Type} (b : Buffer T) (log log' : List T)
    (h : stackInv b log) (hsub : ∀ x ∈ log, x ∈ log') : stackInv b log' := by
  obtain ⟨hp, hf, hl, hpr, hcap⟩ := h
  exact ⟨fun x hx => hsub x (hp x hx), fun x hx => hsub x (hf x hx), hsub _ hl,
    fun hn => hsub _ (hpr hn), hcap⟩

theorem stackInv_expire {T : Type} (b : Buffer T) (t : Nat) (log : List T)
    (h : stackInv b log) :
    stackInv (b.expire t) ((b.expire t).lastCommitted :: log) := by
  obtain ⟨hp, hf, hl, hpr, hcap⟩ := h
  have hsub : ∀ x ∈ log, x ∈ (b.expire t).lastCommitted :: log :=
    fun x hx => List.mem_cons_of_mem _ hx
  cases hpend : b.pendingTimeout with
  | none =>
      have hx : b.expire t = b := by simp [Buffer.expire, hpend]
      rw [hx] at hsub ⊢
      exact stackInv_mono b log _ ⟨hp, hf, hl, hpr, hcap⟩ hsub
  | some vd =>
      obtain ⟨v, d⟩ := vd
      by_cases hd : d ≤ t
      · have hx : b.expire t
            = Buffer.mk b.present (b.past ++ [b.lastCommitted]) [] v none := by
          simp [Buffer.expire, Buffer.fireTimeout, hpend, hd]
        rw [hx] at hsub ⊢
        refine ⟨?_, ?_, ?_, ?_, ?_⟩
        · intro x hx'
          rcases List.mem_append.mp hx' with hx' | hx'
          · exact hsub x (hp x hx')
          · rcases List.mem_singleton.mp hx' with rfl
            exact hsub _ hl
        · intro x hx'
          cases hx'
        · exact List.mem_cons_self _ _
        · intro _
          have : v = b.present := hcap v d hpend
          rw [← this]
          exact List.mem_cons_self _ _
        · intro v' d' h'
          exact nomatch h'
      · have hx : b.expire t = b := by simp [Buffer.expire, hpend, hd]
        rw [hx] at hsub ⊢
        exact stackInv_mono b log _ ⟨hp, hf, hl, hpr, hcap⟩ hsub

theorem stackInv_applyOp {T : Type} [DecidableEq T] (b : Buffer T) (D t : Nat)
    (op : Op T) (log : List T) (h : stackInv b log)
    (hguard : (op = Op.undo ∨ op = Op.redo) → b.pendingTimeout = none) :
    stackInv (b.applyOp D t op) ((b.applyOp D t op).lastCommitted :: log) := by
  obtain ⟨hp, hf, hl, hpr, hcap⟩ := h
  have hsub : ∀ x ∈ log, x ∈ (b.applyOp D t op).lastCommitted :: log :=
    fun x hx => List.mem_cons_of_mem _ hx
  cases op with
  | set v f =>
      by_cases hv : v = b.present
      · have hx : b.applyOp D t (Op.set v f) = b := by
          simp [Buffer.applyOp, Buffer.set, hv]
        rw [hx] at hsub ⊢
        exact stackInv_mono b log _ ⟨hp, hf, hl, hpr, hcap⟩ hsub
      · by_cases hc : (f || D == 0) = true
        · have hx : b.applyOp D t (Op.set v f)
              = Buffer.mk v (b.past ++ [b.lastCommitted]) [] v none := by
            simp [Buffer.applyOp, Buffer.set, hv, hc]
          rw [hx] at hsub ⊢
          refine ⟨?_, ?_, ?_, ?_, ?_⟩
          · intro x hx'
            rcases List.mem_append.mp hx' with hx' | hx'
            · exact hsub x (hp x hx')
            · rcases List.mem_singleton.mp hx' with rfl
              exact hsub _ hl
          · intro x hx'
            cases hx'
          · exact List.mem_cons_self _ _
          · intro _
            exact List.mem_cons_self _ _
          · intro v' d' h'
            exact nomatch h'
        · have hx : b.applyOp D t (Op.set v f)
              = Buffer.mk v b.past b.future b.lastCommitted (some (v, t + D)) := by
            simp [Buffer.applyOp, Buffer.set, hv, hc]
          rw [hx] at hsub ⊢
          refine ⟨?_, ?_, ?_, ?_, ?_⟩
          · exact fun x hx' => hsub x (hp x hx')
          · exact fun x hx' => hsub x (hf x hx')
          · exact hsub _ hl
          · intro h'
            exact nomatch h'
          · intro v' d' h'
            have hpq : (v, t + D) = (v', d') := Option.some.inj h'
            exact (congrArg Prod.fst hpq).symm
  | undo =>
      have hpend : b.pendingTimeout = none := hguard (Or.inl rfl)
      cases hl' : b.past.getLast? with
      | none =>
          have hx : b.applyOp D t Op.undo = b := by
            simp [Buffer.applyOp, Buffer.undo, hl']
          rw [hx] at hsub ⊢
          exact stackInv_mono b log _ ⟨hp, hf, hl, hpr, hcap⟩ hsub
      | some prev =>
          have hprev : prev ∈ b.past := by
            obtain ⟨hne, heq⟩ := List.mem_getLast?_eq_getLast (l := b.past) (x := prev) hl'
            rw [heq]
            exact List.getLast_mem hne
          have hx : b.applyOp D t Op.undo
              = Buffer.mk prev b.past.dropLast (b.present :: b.future) prev none := by
            simp [Buffer.applyOp, Buffer.undo, hl']
          rw [hx] at hsub ⊢
          refine ⟨?_, ?_, ?_, ?_, ?_⟩
          · intro x hx'
            exact hsub x (hp x (List.dropLast_subset _ hx'))
          · intro x hx'
            rcases List.mem_cons.mp hx' with rfl | hx'
            · exact hsub _ (hpr hpend)
            · exact hsub x (hf x hx')
          · exact hsub _ (hp prev hprev)
          · intro _
            exact hsub _ (hp prev hprev)
          · intro v' d' h'
            exact nomatch h'
  | redo =>
      have hpend : b.pendingTimeout = none := hguard (Or.inr rfl)
      cases hfut : b.future with
      | nil =>
          have hx : b.applyOp D t Op.redo = b := by
            simp [Buffer.applyOp, Buffer.redo, hfut]
          rw [hx] at hsub ⊢
          exact stackInv_mono b log _ ⟨hp, hf, hl, hpr, hcap⟩ hsub
      | cons nx rest =>
          have hnx : nx ∈ b.future := by
            rw [hfut]; exact List.mem_cons_self _ _
          have hx : b.applyOp D t Op.redo
              = Buffer.mk nx (b.past ++ [b.present]) rest nx none := by
            simp [Buffer.applyOp, Buffer.redo, hfut]
          rw [hx] at hsub ⊢
          refine ⟨?_, ?_, ?_, ?_, ?_⟩
          · intro x hx'
            rcases List.mem_append.mp hx' with hx' | hx'
            · exact hsub x (hp x hx')
            · rcases List.mem_singleton.mp hx' with rfl
              exact hsub _ (hpr hpend)
          · intro x hx'
            refine hsub x (hf x ?_)
            rw [hfut]
            exact List.mem_cons_of_mem _ hx'
          · exact hsub _ (hf nx hnx)
          · intro _
            exact hsub _ (hf nx hnx)
          · intro v' d' h'
            exact nomatch h'
  | reset v =>
      have hx : b.applyOp D t (Op.reset v) = Buffer.mk v [] [] v none := by
        simp [Buffer.applyOp, Buffer.reset]
      rw [hx] at hsub ⊢
      refine ⟨?_, ?_, ?_, ?_, ?_⟩
      · intro x hx'
        cases hx'
      · intro x hx'
        cases hx'
      · exact List.mem_cons_self _ _
      · intro _
        exact List.mem_cons_self _ _
      · intro v' d' h'
        exact nomatch h'

theorem stackInv_runLogC {T : Type} [DecidableEq T] (D : Nat) :
    ∀ (trace : List (Nat × Op T)) (b : Buffer T) (log : List T),
      stackInv b log → guardedTrace D b trace = true →
      stackInv (runLogC D b log trace).1 (runLogC D b log trace).2 := by
  intro trace
  induction trace with
  | nil => intro b log h _; exact h
  | cons e rest ih =>
      obtain ⟨t, op⟩ := e
      intro b log h hg
      simp only [guardedTrace, Bool.and_eq_true] at hg
      obtain ⟨hg1, hg2⟩ := hg
      have hguard : (op = Op.undo ∨ op = Op.redo) → (b.expire t).pendingTimeout = none := by
        intro hop
        rcases hop with rfl | rfl
        · exact Option.isNone_iff_eq_none.mp hg1
        · exact Option.isNone_iff_eq_none.mp hg1
      have h1 := stackInv_expire b t log h
      have h2 := stackInv_applyOp (b.expire t) D t op _ h1 hguard
      exact ih _ _ h2 hg2

/-- Amended claim C4: provided `undo` and `redo` are only invoked while no
debounced commit is pending, every value stored in `past` and in `future` of
a reachable state was committed at some point of the run (it appears in the
`lastCommitted` log); without that proviso an undo or redo issued during a
pending debounced commit moves the uncommitted in-flight `present` into
`future` respectively `past`. -/
theorem guarded_stacks_hold_committed_values {T : Type} [DecidableEq T] (D : Nat)
    (v0 : T) (trace : List (Nat × Op T))
    (hg : guardedTrace D (Buffer.init v0) trace = true) :
    (∀ x ∈ (runLogC D (Buffer.init v0) [v0] trace).1.past,
        x ∈ (runLogC D (Buffer.init v0) [v0] trace).2) ∧
    (∀ x ∈ (runLogC D (Buffer.init v0) [v0] trace).1.future,
        x ∈ (runLogC D (Buffer.init v0) [v0] trace).2) := by
  have h0 : stackInv (Buffer.init v0) [v0] := by
    refine ⟨?_, ?_, ?_, ?_, ?_⟩
    · intro x hx
      cases hx
    · intro x hx
      cases hx
    · exact List.mem_cons_self _ _
    · intro _
      exact List.mem_cons_self _ _
    · intro v' d' h'
      exact nomatch h'
  have h := stackInv_runLogC D trace (Buffer.init v0) [v0] h0 hg
  exact ⟨h.1, h.2.1⟩

/-- Witness for the amended C4 on a concrete guarded run (forced commit,
undo, debounced edit left pending). -/
theorem guarded_stacks_hold_committed_values_witness :
    (∀ x ∈ (runLogC 5 (Buffer.init (0 : Nat)) [0]
        [(0, Op.set 1 true), (1, Op.undo), (2, Op.set 2 false)]).1.past,
        x ∈ (runLogC 5 (Buffer.init (0 : Nat)) [0]
        [(0, Op.set 1 true), (1, Op.undo), (2, Op.set 2 false)]).2) ∧
    (∀ x ∈ (runLogC 5 (Buffer.init (0 : Nat)) [0]
        [(0, Op.set 1 true), (1, Op.undo), (2, Op.set 2 false)]).1.future,
        x ∈ (runLogC 5 (Buffer.init (0 : Nat)) [0]
        [(0, Op.set 1 true), (1, Op.undo), (2, Op.set 2 false)]).2) :=
  guarded_stacks_hold_committed_values 5 0
    [(0, Op.set 1 true), (1, Op.undo), (2, Op.set 2 false)] (by decide)

/-- Counterexample to claim C4 as stated: a `redo` issued while a debounced
commit is pending pushes the never-committed in-flight value `2` onto
`past`; `2` occurs in no `lastCommitted` observation of the run. -/
theorem uncommitted_value_reaches_past :
    2 ∈ (runLogC 5 (Buffer.init (0 : Nat)) [0]
        [(0, Op.set 1 true), (1, Op.undo), (2, Op.set 2 false), (3, Op.redo)]).1.past ∧
    2 ∉ (runLogC 5 (Buffer.init (0 : Nat)) [0]
        [(0, Op.set 1 true), (1, Op.undo), (2, Op.set 2 false), (3, Op.redo)]).2 := by
  decide

theorem burst_runTimed {T : Type} [DecidableEq T] (D : Nat) (hD : 0 < D) :
    ∀ (rest : List (Nat × T)) (v : T) (t : Nat) (ps fut : List T) (lc : T),
      burstRest D v t rest = true →
      Buffer.runTimed D (Buffer.mk v ps fut lc (some (v, t + D))) (burstTrace rest)
        = Buffer.mk (rest.getLastD (t, v)).2 ps fut lc
            (some ((rest.getLastD (t, v)).2, (rest.getLastD (t, v)).1 + D)) := by
  intro rest
  induction rest with
  | nil =>
      intro v t ps fut lc _
      simp [burstTrace, Buffer.runTimed, List.getLastD]
  | cons tv rest ih =>
      obtain ⟨t', v'⟩ := tv
      intro v t ps fut lc hb
      simp only [burstRest, Bool.and_eq_true, decide_eq_true_eq] at hb
      obtain ⟨⟨⟨hle, hlt⟩, hne⟩, hrest⟩ := hb
      have hstep : ((Buffer.mk v ps fut lc (some (v, t + D))).expire t').applyOp D t'
            (Op.set v' false)
          = Buffer.mk v' ps fut lc (some (v', t' + D)) := by
        have hexp : (Buffer.mk v ps fut lc (some (v, t + D))).expire t'
            = Buffer.mk v ps fut lc (some (v, t + D)) := by
          simp [Buffer.expire, Nat.not_le.mpr hlt]
        rw [hexp]
        have hD0 : (D == 0) = false := by
          simp [Nat.pos_iff_ne_zero.mp hD]
        simp [Buffer.applyOp, Buffer.set, hne, hD0]
      have hgl : ((t', v') :: rest).getLastD (t, v) = rest.getLastD (t', v') := by
        cases rest with
        | nil => rfl
        | cons h tl => simp [List.getLastD]
      rw [hgl]
      show Buffer.runTimed D _ ((t', Op.set v' false) :: burstTrace rest) = _
      simp only [Buffer.runTimed]
      rw [hstep]
      exact ih v' t' ps fut lc hrest

/-- Claim C5: starting from a reachable quiescent state (no pending debounced
commit), a burst of non-forced `set` calls whose consecutive gaps are below
the debounce interval `D`, followed by quiet time of at least `D`, pushes
exactly one new entry onto `past`, and that entry is the value in effect
before the first call of the burst. -/
theorem debounce_coalesces_single_entry {T : Type} [DecidableEq T] (D : Nat)
    (v0 : T) (pre : List (Nat × Op T)) (t1 : Nat) (v1 : T)
    (rest : List (Nat × T)) (tEnd : Nat) (hD : 0 < D)
    (hq : (Buffer.runTimed D (Buffer.init v0) pre).pendingTimeout = none)
    (hv1 : v1 ≠ (Buffer.runTimed D (Buffer.init v0) pre).present)
    (hrest : burstRest D v1 t1 rest = true)
    (hEnd : (rest.getLastD (t1, v1)).1 + D ≤ tEnd) :
    ((Buffer.runTimed D (Buffer.runTimed D (Buffer.init v0) pre)
        (burstTrace ((t1, v1) :: rest))).expire tEnd).past
      = (Buffer.runTimed D (Buffer.init v0) pre).past
          ++ [(Buffer.runTimed D (Buffer.init v0) pre).present] := by
  have hinv := lcInv_runTimed D pre (Buffer.init v0) (lcInv_init v0)
  have hlc : (Buffer.runTimed D (Buffer.init v0) pre).lastCommitted
      = (Buffer.runTimed D (Buffer.init v0) pre).present := hinv.1 hq
  set b0 := Buffer.runTimed D (Buffer.init v0) pre with hb0
  have hD0 : (D == 0) = false := by
    simp [Nat.pos_iff_ne_zero.mp hD]
  have hstep1 : (b0.expire t1).applyOp D t1 (Op.set v1 false)
      = Buffer.mk v1 b0.past b0.future b0.lastCommitted (some (v1, t1 + D)) := by
    have hexp : b0.expire t1 = b0 := by
      simp [Buffer.expire, hq]
    rw [hexp]
    simp [Buffer.applyOp, Buffer.set, hv1, hD0]
  show ((Buffer.runTimed D b0 ((t1, Op.set v1 false) :: burstTrace rest)).expire
      tEnd).past = b0.past ++ [b0.present]
  simp only [Buffer.runTimed]
  rw [hstep1, burst_runTimed D hD rest v1 t1 b0.past b0.future b0.lastCommitted hrest]
  simp only [Buffer.expire]
  rw [if_pos hEnd]
  simp [Buffer.fireTimeout, hlc]

/-- Witness for C5: two debounced edits within the window (gap 5 < 10) after
a forced commit; after the quiet period exactly the pre-burst value `1` is
pushed. -/
theorem debounce_coalesces_single_entry_witness :
    ((Buffer.runTimed 10 (Buffer.runTimed 10 (Buffer.init (0 : Nat))
        [(0, Op.set 1 true)]) (burstTrace [(100, 2), (105, 3)])).expire 115).past
      = (Buffer.runTimed 10 (Buffer.init (0 : Nat)) [(0, Op.set 1 true)]).past
          ++ [(Buffer.runTimed 10 (Buffer.init (0 : Nat)) [(0, Op.set 1 true)]).present] :=
  debounce_coalesces_single_entry 10 0 [(0, Op.set 1 true)] 100 2 [(105, 3)] 115
    (by decide) (by decide) (by decide) (by decide) (by decide)

end TextPurify
